import Mathlib

/-!
# tracing-linux-macos: `pass.c` and `safe.c`

A shallow embedding of the two C programs of the repository.

* Bytes (`unsigned char`, and the storage of a `char`) are natural numbers below 256.
* A pointer to a C string is the list of bytes stored from the pointed address on; a
  read past the end of that list is undefined behaviour and is reported as `none`.
* `pass.c` calls `uncompress` of the zlib library, which is not under `src/`. The
  specification asks for "a standard DEFLATE/zlib-style decompression algorithm"; the
  namespace `Zlib` embeds that standard: RFC 1950 for the zlib wrapper, RFC 1951 for
  DEFLATE, decoded one bit at a time as the reference decoder of zlib does, with the
  return codes that `zlib.h` documents.
* `safe.c` calls `access` of the operating system; the file system is an explicit state.
-/

namespace Zlib

/-! ## zlib return codes (`zlib.h`) -/

def Z_OK : Int := 0
def Z_STREAM_END : Int := 1
def Z_NEED_DICT : Int := 2
def Z_DATA_ERROR : Int := -3
def Z_BUF_ERROR : Int := -5

/-! ## Bit input -/

/-- The eight bits of a byte, least significant first (RFC 1951, section 3.1.1). -/
def byteBits (b : Nat) : List Bool :=
  [b.testBit 0, b.testBit 1, b.testBit 2, b.testBit 3,
   b.testBit 4, b.testBit 5, b.testBit 6, b.testBit 7]

/-- The input as a sequence of bits, in the order in which DEFLATE consumes them. -/
def bytesToBits : List Nat → List Bool
  | [] => []
  | b :: bs => byteBits b ++ bytesToBits bs

/-- State of the decoder: the bits still to be read, the number of bits already read
(needed to find the next byte boundary) and the output produced so far, last byte first. -/
structure Stream where
  bits : List Bool
  used : Nat
  rout : List Nat

/-- Read an `n`-bit number, least significant bit first; `none` when the input ends. -/
def getBits : Nat → Stream → Option (Nat × Stream)
  | 0, s => some (0, s)
  | _ + 1, ⟨[], _, _⟩ => none
  | n + 1, ⟨b :: bits, used, rout⟩ =>
    match getBits n ⟨bits, used + 1, rout⟩ with
    | none => none
    | some (v, s) => some ((if b then 1 else 0) + 2 * v, s)

/-- Discard the bits left in the current byte. -/
def alignByte (s : Stream) : Stream :=
  let k := (8 - s.used % 8) % 8
  ⟨s.bits.drop k, s.used + k, s.rout⟩

/-! ## Huffman codes (canonical, RFC 1951 section 3.2.2) -/

/-- A canonical Huffman code: `count[l]` is the number of symbols with code length `l`
(`l = 0 .. 15`), `symbol` lists the coded symbols by increasing length, then value. -/
structure Huffman where
  count : List Nat
  symbol : List Nat

def MAXBITS : Nat := 15

/-- Build the decoding table of the code whose symbol `i` has length `lengths[i]`. -/
def construct (lengths : List Nat) : Huffman :=
  { count := (List.range (MAXBITS + 1)).map (fun l => lengths.count l)
    symbol := (List.range' 1 MAXBITS).flatMap
      (fun l => (List.range lengths.length).filter (fun i => lengths.get? i == some l)) }

/-- Number of code words left unused after each length is accounted for:
`none` for an over-subscribed set of lengths, `some 0` for a complete one. -/
def codeSpace : List Nat → Nat → Option Nat
  | [], left => some left
  | c :: cs, left => if 2 * left < c then none else codeSpace cs (2 * left - c)

/-- Unused code words of a table (lengths `1 .. 15`). -/
def Huffman.left (h : Huffman) : Option Nat := codeSpace (h.count.drop 1) 1

/-- Value returned by `construct` in the reference decoder: `some 0` for a complete code
(or one without any symbol), `some k` with `k > 0` for an incomplete code, `none` for an
over-subscribed one. `n` is the number of symbols. -/
def Huffman.check (h : Huffman) (n : Nat) : Option Nat :=
  if h.count.get? 0 = some n then some 0 else h.left

/-- Reasons for which decoding stops early: the input ended, the data is invalid, the
output buffer is full, or the stream asks for a preset dictionary. -/
inductive Fault where
  | needInput
  | badData
  | outputFull
  | needDict
  deriving DecidableEq, Repr

/-- Decode one symbol, one bit at a time; `cs` holds the counts of the lengths not yet
tried, `code` the bits read so far, `first` the first code of the current length and
`index` the position in `symbol` of that first code. -/
def decodeFrom (symbol : List Nat) : List Nat → Nat → Nat → Nat → Stream →
    Except Fault (Nat × Stream)
  | [], _, _, _, _ => .error .badData
  | c :: cs, code, first, index, s =>
    match getBits 1 s with
    | none => .error .needInput
    | some (b, s1) =>
      let code1 := code + b
      if code1 < first + c then
        match symbol.get? (index + (code1 - first)) with
        | some sym => .ok (sym, s1)
        | none => .error .badData
      else decodeFrom symbol cs (2 * code1) (2 * (first + c)) (index + c) s1

def decode (h : Huffman) (s : Stream) : Except Fault (Nat × Stream) :=
  decodeFrom h.symbol (h.count.drop 1) 0 0 0 s

/-! ## Output -/

/-- Result of a decoding step: the new state, or the fault together with the output that
was produced before it (last byte first). -/
abbrev Step := Except (Fault × List Nat) Stream

/-- Append one byte to the output, whose capacity is `cap` bytes. -/
def put (cap b : Nat) (s : Stream) : Step :=
  if s.rout.length < cap then .ok { s with rout := b :: s.rout }
  else .error (.outputFull, s.rout)

/-- Copy `n` bytes from `dist` bytes back in the output, one at a time. Room in the
output is looked for first, then the byte to copy: a distance that reaches before the
start of the output is invalid data. -/
def copyMatch (cap dist : Nat) : Nat → Stream → Step
  | 0, s => .ok s
  | n + 1, s =>
    if cap ≤ s.rout.length then .error (.outputFull, s.rout)
    else
      match s.rout.get? (dist - 1) with
      | none => .error (.badData, s.rout)
      | some b => copyMatch cap dist n { s with rout := b :: s.rout }

/-! ## Compressed blocks (RFC 1951 section 3.2.5) -/

/-- For the length symbols `257 .. 285`, in this order: the smallest length the symbol
stands for and the number of extra bits that follow it. -/
def lengthCodes : List (Nat × Nat) :=
  [(3, 0), (4, 0), (5, 0), (6, 0), (7, 0), (8, 0),
   (9, 0), (10, 0), (11, 1), (13, 1), (15, 1), (17, 1),
   (19, 2), (23, 2), (27, 2), (31, 2), (35, 3), (43, 3),
   (51, 3), (59, 3), (67, 4), (83, 4), (99, 4), (115, 4),
   (131, 5), (163, 5), (195, 5), (227, 5), (258, 0)]

/-- For the distance symbols `0 .. 29`: the smallest distance and the number of extra
bits. -/
def distCodes : List (Nat × Nat) :=
  [(1, 0), (2, 0), (3, 0), (4, 0), (5, 1), (7, 1),
   (9, 2), (13, 2), (17, 3), (25, 3), (33, 4), (49, 4),
   (65, 5), (97, 5), (129, 6), (193, 6), (257, 7), (385, 7),
   (513, 8), (769, 8), (1025, 9), (1537, 9), (2049, 10), (3073, 10),
   (4097, 11), (6145, 11), (8193, 12), (12289, 12), (16385, 13), (24577, 13)]

/-- Decode the length of a match (symbol `sym > 256`) and its distance. -/
def readMatch (distcode : Huffman) (sym : Nat) (s : Stream) : Except Fault (Nat × Nat × Stream) :=
  match lengthCodes.get? (sym - 257) with
  | some (base, eb) =>
    match getBits eb s with
    | none => .error .needInput
    | some (e, s1) =>
      match decode distcode s1 with
      | .error f => .error f
      | .ok (dsym, s2) =>
        match distCodes.get? dsym with
        | some (dbase, deb) =>
          match getBits deb s2 with
          | none => .error .needInput
          | some (de, s3) => .ok (base + e, dbase + de, s3)
        | none => .error .badData
  | none => .error .badData

/-- Decode literal/length and distance codes until the end-of-block symbol 256. Every
round reads at least one bit, so `fuel` above the number of remaining bits is enough. -/
def codes (cap : Nat) (lencode distcode : Huffman) : Nat → Stream → Step
  | 0, s => .error (.needInput, s.rout)
  | fuel + 1, s =>
    match decode lencode s with
    | .error f => .error (f, s.rout)
    | .ok (sym, s1) =>
      if sym < 256 then
        match put cap sym s1 with
        | .error e => .error e
        | .ok s2 => codes cap lencode distcode fuel s2
      else if sym = 256 then .ok s1
      else
        match readMatch distcode sym s1 with
        | .error f => .error (f, s1.rout)
        | .ok (len, dist, s2) =>
          match copyMatch cap dist len s2 with
          | .error e => .error e
          | .ok s3 => codes cap lencode distcode fuel s3

/-- Code lengths of the fixed literal/length code. -/
def fixedLengths : List Nat :=
  List.replicate 144 8 ++ List.replicate 112 9 ++ List.replicate 24 7 ++ List.replicate 8 8

/-- Block of type 1: fixed Huffman codes. -/
def fixed (cap : Nat) (s : Stream) : Step :=
  codes cap (construct fixedLengths) (construct (List.replicate 30 5)) (s.bits.length + 1) s

/-! ## Stored blocks (RFC 1951 section 3.2.4) -/

def copyStored (cap : Nat) : Nat → Stream → Step
  | 0, s => .ok s
  | n + 1, s =>
    match getBits 8 s with
    | none => .error (.needInput, s.rout)
    | some (b, s1) =>
      match put cap b s1 with
      | .error e => .error e
      | .ok s2 => copyStored cap n s2

/-- Block of type 0: a length, its one's complement, and that many bytes. -/
def stored (cap : Nat) (s : Stream) : Step :=
  match getBits 16 (alignByte s) with
  | none => .error (.needInput, s.rout)
  | some (len, s1) =>
    match getBits 16 s1 with
    | none => .error (.needInput, s.rout)
    | some (nlen, s2) =>
      if len + nlen = 65535 then copyStored cap len s2 else .error (.badData, s.rout)

/-! ## Dynamic Huffman codes (RFC 1951 section 3.2.7) -/

/-- Order in which the lengths of the code-length code are sent. -/
def order : List Nat :=
  [16, 17, 18, 0, 8, 7, 9, 6, 10, 5, 11, 4, 12, 3, 13, 2, 14, 1, 15]

/-- Read `n` numbers of three bits each. -/
def readCodeLengthLengths : Nat → Stream → Option (List Nat × Stream)
  | 0, s => some ([], s)
  | n + 1, s =>
    match getBits 3 s with
    | none => none
    | some (v, s1) =>
      match readCodeLengthLengths n s1 with
      | none => none
      | some (vs, s2) => some (v :: vs, s2)

/-- Length of symbol `i` of the code-length code, from the lengths `vs` read in `order`
(a symbol that was not sent has length 0). -/
def orderedLength (vs : List Nat) (i : Nat) : Nat :=
  match order.indexOf? i with
  | some k => (vs.get? k).getD 0
  | none => 0

/-- Read the `total` literal/length and distance code lengths, run-length coded with the
code `lencode`. `acc` holds the lengths read so far, last first. -/
def readLengths (lencode : Huffman) (total : Nat) : Nat → List Nat → Stream →
    Except Fault (List Nat × Stream)
  | 0, _, _ => .error .needInput
  | fuel + 1, acc, s =>
    if total ≤ acc.length then .ok (acc.reverse, s)
    else
      match decode lencode s with
      | .error f => .error f
      | .ok (sym, s1) =>
        if sym < 16 then readLengths lencode total fuel (sym :: acc) s1
        else
          let prev : Option Nat := if sym = 16 then acc.head? else some 0
          let width := if sym = 16 then 2 else if sym = 17 then 3 else 7
          let base := if sym = 18 then 11 else 3
          match prev with
          | none => .error .badData
          | some len =>
            match getBits width s1 with
            | none => .error .needInput
            | some (e, s2) =>
              if total < acc.length + (base + e) then .error .badData
              else readLengths lencode total fuel (List.replicate (base + e) len ++ acc) s2

/-- Whether a literal/length or distance code of `n` symbols is rejected: it is
over-subscribed, or incomplete with more than a single code of length one. -/
def rejected (h : Huffman) (n : Nat) : Bool :=
  match h.check n with
  | none => true
  | some 0 => false
  | some _ => (h.count.get? 0).getD 0 + (h.count.get? 1).getD 0 != n

/-- The two codes of a dynamic block, read from its header. -/
def readTables (s : Stream) : Except Fault (Huffman × Huffman × Stream) :=
  match getBits 5 s with
  | none => .error .needInput
  | some (hlit, s1) =>
    match getBits 5 s1 with
    | none => .error .needInput
    | some (hdist, s2) =>
      match getBits 4 s2 with
      | none => .error .needInput
      | some (hclen, s3) =>
        let nlen := hlit + 257
        let ndist := hdist + 1
        if 286 < nlen ∨ 30 < ndist then .error .badData
        else
          match readCodeLengthLengths (hclen + 4) s3 with
          | none => .error .needInput
          | some (vs, s4) =>
            let clcode := construct ((List.range 19).map (orderedLength vs))
            if clcode.check 19 ≠ some 0 then .error .badData
            else
              match readLengths clcode (nlen + ndist) (nlen + ndist + 1) [] s4 with
              | .error f => .error f
              | .ok (lengths, s5) =>
                let lencode := construct (lengths.take nlen)
                let distcode := construct (lengths.drop nlen)
                if (lengths.get? 256).getD 0 = 0 then .error .badData
                else if rejected lencode nlen then .error .badData
                else if rejected distcode ndist then .error .badData
                else .ok (lencode, distcode, s5)

/-- Block of type 2: Huffman codes sent in the block. -/
def dynamic (cap : Nat) (s : Stream) : Step :=
  match readTables s with
  | .error f => .error (f, s.rout)
  | .ok (lencode, distcode, s1) => codes cap lencode distcode (s1.bits.length + 1) s1

/-! ## The DEFLATE stream and its zlib wrapper -/

/-- Decode blocks up to and including the one marked as last. Every block reads at
least three bits, so `fuel` above the number of remaining bits is enough. -/
def blocks (cap : Nat) : Nat → Stream → Step
  | 0, s => .error (.needInput, s.rout)
  | fuel + 1, s =>
    match getBits 1 s with
    | none => .error (.needInput, s.rout)
    | some (last, s1) =>
      match getBits 2 s1 with
      | none => .error (.needInput, s.rout)
      | some (type, s2) =>
        let r : Step :=
          if type = 0 then stored cap s2
          else if type = 1 then fixed cap s2
          else if type = 2 then dynamic cap s2
          else .error (.badData, s.rout)
        match r with
        | .error e => .error e
        | .ok s3 => if last = 1 then .ok s3 else blocks cap fuel s3

/-- Adler-32 checksum (RFC 1950 section 8.2). -/
def adler32 (bs : List Nat) : Nat :=
  let r := bs.foldl (fun (p : Nat × Nat) x => ((p.1 + x) % 65521, (p.2 + (p.1 + x) % 65521) % 65521)) (1, 0)
  r.2 * 65536 + r.1

/-- Code returned by `inflate` for a fault. -/
def Fault.code : Fault → Int
  | .needInput => Z_BUF_ERROR
  | .outputFull => Z_BUF_ERROR
  | .badData => Z_DATA_ERROR
  | .needDict => Z_NEED_DICT

/-- The checksum that follows the last block: four bytes, most significant first. -/
def readCheck (s : Stream) : Option Nat :=
  match getBits 8 (alignByte s) with
  | none => none
  | some (b3, s1) =>
    match getBits 8 s1 with
    | none => none
    | some (b2, s2) =>
      match getBits 8 s2 with
      | none => none
      | some (b1, s3) =>
        match getBits 8 s3 with
        | none => none
        | some (b0, _) => some (((b3 * 256 + b2) * 256 + b1) * 256 + b0)

/-- Modelled from the spec: `inflate` is zlib's and not under `src/`; this is the
"standard DEFLATE/zlib-style decompression algorithm" that the specification names.
Decode a whole zlib stream into a buffer of `cap` bytes, as `inflate` does when it is
called until it stops returning `Z_OK`: the result is the last return code and the bytes
written (`total_out` of them). Bytes that follow the stream are not looked at. -/
def inflate (cap : Nat) (source : List Nat) : Int × List Nat :=
  match source with
  | cmf :: flg :: rest =>
    if (cmf * 256 + flg) % 31 ≠ 0 then (Z_DATA_ERROR, [])
    else if cmf % 16 ≠ 8 then (Z_DATA_ERROR, [])
    else if 7 < cmf / 16 then (Z_DATA_ERROR, [])
    else if flg.testBit 5 then
      (if rest.length < 4 then Z_BUF_ERROR else Z_NEED_DICT, [])
    else
      let bits := bytesToBits rest
      match blocks cap (bits.length + 1) ⟨bits, 0, []⟩ with
      | .error (f, rout) => (f.code, rout.reverse)
      | .ok s =>
        match readCheck s with
        | none => (Z_BUF_ERROR, s.rout.reverse)
        | some c =>
          (if c = adler32 s.rout.reverse then Z_STREAM_END else Z_DATA_ERROR, s.rout.reverse)
  | _ => (Z_BUF_ERROR, [])

/-- Modelled from the spec: `uncompress` is zlib's and not under `src/`; the
specification has it decompress into a buffer of fixed capacity and fail on corrupt or
truncated data and on an output buffer that is too small. This is `int uncompress(Bytef
*dest, uLongf *destLen, const Bytef *source, uLong sourceLen)` for a non-empty destination, `*destLen` being the size of `dest`
on entry (as in `pass.c`). The result is the return code, the content of `dest` on
return and the new value of `*destLen`: the bytes decoded before decompression stopped
overwrite the beginning of `dest`, the rest of `dest` keeps its content. -/
def uncompress (dest : List Nat) (source : List Nat) : Int × List Nat × Nat :=
  let r := inflate dest.length source
  let err : Int :=
    if r.1 = Z_STREAM_END then Z_OK
    else if r.1 = Z_NEED_DICT then Z_DATA_ERROR
    else if r.1 = Z_BUF_ERROR ∧ r.2.length < dest.length then Z_DATA_ERROR
    else r.1
  (err, r.2 ++ dest.drop r.2.length, r.2.length)

end Zlib

/-! ## C library and operating system -/

namespace Libc

/-- `strlen(s)`: number of bytes before the first null byte of the buffer `s`; `none`
when the buffer holds no null byte (the read runs past its end). -/
def strlen : List Nat → Option Nat
  | [] => none
  | b :: bs =>
    if b = 0 then some 0
    else
      match strlen bs with
      | none => none
      | some n => some (n + 1)

/-- `strcmp(a, b)`: compare byte by byte, as unsigned values, up to the first difference
or the first null byte; the result is negative, zero or positive. `none` when the end of
either buffer is reached before that. -/
def strcmp : List Nat → List Nat → Option Int
  | a :: as, b :: bs =>
    if a < b then some (-1)
    else if b < a then some 1
    else if a = 0 then some 0
    else strcmp as bs
  | _, _ => none

/-- `strdup(s)`: a fresh buffer of `strlen(s) + 1` bytes holding a copy of the string
and of its terminating null byte (allocation is assumed to succeed). -/
def strdup (s : List Nat) : Option (List Nat) :=
  match strlen s with
  | none => none
  | some n => some (s.take (n + 1))

end Libc

namespace Posix

/-- Result of resolving a path name. -/
inductive Lookup where
  | found
  | notFound
  | permissionDenied
  | otherError
  deriving DecidableEq, Repr

/-- The file system as seen through path resolution: for each path name (a sequence of
non-null bytes), whether an entry is found there or why the lookup fails. -/
structure FileSystem where
  lookup : List Nat → Lookup

def F_OK : Int := 0

/-- `access(path, F_OK)`: 0 when the path resolves to an existing entry, -1 when it does
not or when the lookup fails otherwise. The file system is left as it is. `none` when
`path` is not null-terminated. -/
def access (fs : FileSystem) (path : List Nat) (_mode : Int) : Option (Int × FileSystem) :=
  match Libc.strlen path with
  | none => none
  | some n => some (if fs.lookup (path.take n) = .found then 0 else -1, fs)

end Posix

/-- What a run of a program leaves behind: its exit status and what it wrote to the
standard output and to the standard error stream. -/
structure Outcome where
  status : Int
  stdout : String
  stderr : String
  deriving DecidableEq, Repr

/-! ## `pass.c` -/

namespace Pass

/-- The array `data` of `check`. -/
def data : List Nat :=
  [120, 218,  43,  72,  77, 204,  43,  45,
    41,  86,  72,  44,  74,  85,  40,  73,
    77, 206, 200, 203,  76,  78, 204, 201,
   169,  84, 200,  73,  77,  47, 205,  77,
    45, 102,   0,   0, 204, 161,  12,  27]

/-- Initial value of `output_len`, the size of the array `output`. -/
def output_len : Nat := 50

/-- The array `output` before it is written: it is not initialised, its content is
whatever the stack holds, `stack i` at index `i`. -/
def output (stack : Nat → Nat) : List Nat := (List.range output_len).map stack

/-- The function `check`, with the compressed array as a parameter. The return code of
`uncompress` is dropped; `strcmp` reads `output` as `uncompress` left it. -/
def checkWith (data : List Nat) (stack : Nat → Nat) (passphrase : List Nat) : Option Bool :=
  let r := Zlib.uncompress (output stack) data
  match Libc.strcmp r.2.1 passphrase with
  | none => none
  | some c => some (c == 0)

/-- `bool check(const char *passphrase)`; `passphrase` is the memory the pointer
designates and `stack` the initial content of the local array. -/
def check (stack : Nat → Nat) (passphrase : List Nat) : Option Bool :=
  checkWith data stack passphrase

/-- `int main(int argc, char* argv[])` of `pass.c`, with `argc = argv.length`. -/
def main (stack : Nat → Nat) (argv : List (List Nat)) : Option Outcome :=
  if argv.length < 2 then
    some ⟨1, "", "error: no passphrase provided.\n"⟩
  else
    match argv.get? 1 with
    | none => none
    | some arg =>
      match check stack arg with
      | none => none
      | some ok =>
        if !ok then some ⟨1, "", "error: wrong passphrase.\n"⟩
        else some ⟨0, "congratulations!\n", ""⟩

/-- The bytes of the text `peanuts are technically legumes`. -/
def plaintext : List Nat :=
  [112, 101, 97, 110, 117, 116, 115, 32, 97, 114, 101, 32, 116, 101, 99, 104,
   110, 105, 99, 97, 108, 108, 121, 32, 108, 101, 103, 117, 109, 101, 115]

/-- The text value made of the plaintext, a null byte and the letter `x`. -/
def plaintextNulX : List Nat := plaintext ++ [0, 120]

/-- A stack whose first byte is the letter `x` and whose other bytes are null. -/
def stackX : Nat → Nat := fun i => if i = 0 then 120 else 0

/-- The embedded array with its last byte, the end of the checksum, changed. -/
def dataBadCheck : List Nat := data.take 39 ++ [28]

end Pass

/-! ## `safe.c` -/

namespace Safe

/-- Value of a `char` whose storage is the byte `b`. Whether `char` is signed is left to
the implementation (it is on x86-64 Linux and on macOS): `signedChar` says so. -/
def charVal (signedChar : Bool) (b : Nat) : Int :=
  if signedChar ∧ 128 ≤ b then (b : Int) - 256 else (b : Int)

/-- Storage of the `char` that an `int` value converts to. -/
def toByte (v : Int) : Nat := (v % 256).toNat

/-- The right-hand side `65 + ((seed[pos] ^ 33 + file[pos-1]) % 26)` for `c = seed[pos]`
and `p = file[pos-1]`: both are promoted to `int`, `+` binds tighter than `^`, and `%`
truncates towards zero. -/
def step (signedChar : Bool) (c p : Nat) : Int :=
  65 + Int.tmod (Int.xor (charVal signedChar c) (33 + charVal signedChar p)) 26

/-- The loop of `validate`, from position `pos` on: the first argument is the seed from
`seed[pos]` on. Reading `seed` past its end or `file` outside its bounds gives `none`. -/
def transform (signedChar : Bool) : List Nat → Nat → List Nat → Option (List Nat)
  | [], _, _ => none
  | c :: rest, pos, file =>
    if c = 0 then some file
    else
      match file.get? (pos - 1) with
      | none => none
      | some p =>
        if pos < file.length then
          transform signedChar rest (pos + 1) (file.set pos (toByte (step signedChar c p)))
        else none

/-- The buffer `file` when the loop of `validate` is left. -/
def derive (signedChar : Bool) (seed : List Nat) : Option (List Nat) :=
  match Libc.strdup seed with
  | none => none
  | some file => transform signedChar (seed.drop 1) 1 file

/-- The transformation as the specification words it, on the characters that follow
position 0: each character is replaced by the value computed from it and from the
character before it as already transformed, `p` for the first one. -/
def rolling (signedChar : Bool) : Nat → List Nat → List Nat
  | _, [] => []
  | p, c :: cs => toByte (step signedChar c p) :: rolling signedChar (toByte (step signedChar c p)) cs

/-- `bool validate(char *seed)`, on the file system `fs`; the result comes with the file
system after the call. -/
def validate (signedChar : Bool) (fs : Posix.FileSystem) (seed : List Nat) :
    Option (Bool × Posix.FileSystem) :=
  match derive signedChar seed with
  | none => none
  | some file =>
    match Posix.access fs file Posix.F_OK with
    | none => none
    | some (r, fs1) => some (r == 0, fs1)

/-- The string literal `".secret_file_seed"`, with its terminating null byte. -/
def seedLiteral : List Nat :=
  [46, 115, 101, 99, 114, 101, 116, 95, 102, 105, 108, 101, 95, 115, 101, 101, 100, 0]

/-- `int main(int argc, char *argv[])` of `safe.c`. -/
def main (signedChar : Bool) (fs : Posix.FileSystem) (_argv : List (List Nat)) :
    Option (Outcome × Posix.FileSystem) :=
  match validate signedChar fs seedLiteral with
  | none => none
  | some (valid, fs1) =>
    if !valid then some (⟨1, "", "error: secret file is missing.\n"⟩, fs1)
    else some (⟨0, "congratulations!\n", ""⟩, fs1)

/-- The bytes of the path `.IPSGNBIMHFCHAHMK`. -/
def secretPath : List Nat :=
  [46, 73, 80, 83, 71, 78, 66, 73, 77, 72, 70, 67, 72, 65, 72, 77, 75]

/-- A file system whose only entry is named `AG`. -/
def fsOnlyAG : Posix.FileSystem :=
  ⟨fun path => if path = [65, 71] then .found else .notFound⟩

/-- A file system in which the lookup of every path is refused. -/
def fsDenied : Posix.FileSystem := ⟨fun _ => .permissionDenied⟩

end Safe

/-! # Properties -/

namespace Libc

/-- Comparing two C strings: `strcmp` returns, and returns zero exactly when the two
strings are equal, whatever follows their terminators in memory. -/
theorem strcmp_cstring (p : List Nat) : ∀ (s r junk : List Nat), 0 ∉ p → 0 ∉ s →
    ∃ c, strcmp (p ++ 0 :: r) (s ++ 0 :: junk) = some c ∧ (c = 0 ↔ p = s) := by
  induction p with
  | nil =>
    intro s r junk _ hs
    cases s with
    | nil => exact ⟨0, by simp [strcmp], by simp⟩
    | cons b s =>
      have hb : 0 < b := Nat.pos_of_ne_zero (fun h => hs (by simp [h]))
      exact ⟨-1, by simp [strcmp, hb], by simp⟩
  | cons a p ih =>
    intro s r junk hp hs
    have ha : 0 < a := Nat.pos_of_ne_zero (fun h => hp (by simp [h]))
    have hp1 : 0 ∉ p := fun h => hp (List.mem_cons_of_mem _ h)
    cases s with
    | nil => exact ⟨1, by simp [strcmp, ha], by simp⟩
    | cons b s =>
      have hs1 : 0 ∉ s := fun h => hs (List.mem_cons_of_mem _ h)
      by_cases hab : a < b
      · exact ⟨-1, by simp [strcmp, hab], by simp; intro h; omega⟩
      · by_cases hba : b < a
        · exact ⟨1, by simp [strcmp, hab, hba], by simp; intro h; omega⟩
        · have heq : a = b := by omega
          subst heq
          obtain ⟨c, hc, hiff⟩ := ih s r junk hp1 hs1
          refine ⟨c, ?_, by simp [hiff]⟩
          have ha0 : a ≠ 0 := by omega
          simp [strcmp, ha0, hc]

/-- Comparing any buffer with a C string: `strcmp` returns zero exactly when the
buffer starts with the bytes of the string followed by a null byte. -/
theorem strcmp_eq_zero_iff (s : List Nat) : ∀ (buf junk : List Nat), 0 ∉ s →
    (strcmp buf (s ++ 0 :: junk) = some 0 ↔ ∃ rest, buf = s ++ 0 :: rest) := by
  induction s with
  | nil =>
    intro buf junk _
    cases buf with
    | nil => simp [strcmp]
    | cons a as =>
      by_cases ha : a = 0
      · simp [strcmp, ha]
      · have : 0 < a := Nat.pos_of_ne_zero ha
        simp [strcmp, this, ha]
  | cons b s ih =>
    intro buf junk hs
    have hb : b ≠ 0 := fun h => hs (by simp [h])
    have hs1 : 0 ∉ s := fun h => hs (List.mem_cons_of_mem _ h)
    cases buf with
    | nil => simp [strcmp]
    | cons a as =>
      by_cases hab : a < b
      · have : a ≠ b := by omega
        simp [strcmp, hab, this]
      · by_cases hba : b < a
        · have : a ≠ b := by omega
          simp [strcmp, hab, hba, this]
        · have heq : a = b := by omega
          subst heq
          simp [strcmp, hb, ih as junk hs1]

/-- A text value stored with a terminator: the C string it holds is made of the bytes
before its first null byte. -/
theorem cstring_of_text (t : List Nat) :
    ∃ junk, t ++ [0] = t.takeWhile (fun b => b != 0) ++ 0 :: junk := by
  induction t with
  | nil => exact ⟨[], by simp⟩
  | cons a t ih =>
    by_cases ha : a = 0
    · exact ⟨t ++ [0], by simp [ha]⟩
    · obtain ⟨junk, hj⟩ := ih
      refine ⟨junk, ?_⟩
      have htw : (a :: t).takeWhile (fun b => b != 0) = a :: t.takeWhile (fun b => b != 0) := by
        rw [List.takeWhile_cons]; simp [ha]
      rw [htw, List.cons_append, List.cons_append, hj]

theorem not_mem_takeWhile (t : List Nat) : 0 ∉ t.takeWhile (fun b => b != 0) := by
  intro h
  have := List.mem_takeWhile_imp h
  simp at this

end Libc

namespace Pass

theorem output_length (stack : Nat → Nat) : (output stack).length = 50 := by
  simp [output, output_len]

set_option maxRecDepth 100000 in
/-- Decoding the embedded array: one block with the fixed Huffman codes, 32 bytes of
output, and a checksum that matches. -/
theorem inflate_data : Zlib.inflate 50 data = (Zlib.Z_STREAM_END, plaintext ++ [0]) := by
  decide

theorem zero_not_mem_plaintext : 0 ∉ plaintext := by decide

/-- What `uncompress` does in `check`: it succeeds, writes the 32 decoded bytes at the
start of `output` and leaves the other 18 bytes as they were. -/
theorem uncompress_data (stack : Nat → Nat) :
    Zlib.uncompress (output stack) data
      = (Zlib.Z_OK, plaintext ++ 0 :: (output stack).drop 32, 32) := by
  unfold Zlib.uncompress
  rw [output_length, inflate_data]
  simp [Zlib.Z_STREAM_END, Zlib.Z_OK, plaintext]

/-- On a C string, `check` returns, and returns whether the string is the plaintext. -/
theorem check_cstring (stack : Nat → Nat) (s junk : List Nat) (hs : 0 ∉ s) :
    check stack (s ++ 0 :: junk) = some (decide (s = plaintext)) := by
  unfold check checkWith
  rw [uncompress_data]
  obtain ⟨c, hc, hiff⟩ :=
    Libc.strcmp_cstring plaintext s ((output stack).drop 32) junk zero_not_mem_plaintext hs
  simp only [hc]
  by_cases h : s = plaintext
  · have : c = 0 := hiff.mpr h.symm
    simp [h, this]
  · have : c ≠ 0 := fun h0 => h (hiff.mp h0).symm
    simp [h, this]

end Pass

namespace Libc

/-- Once the first string has reached its null byte `strcmp` reads no further: what
follows that byte does not change the result. -/
theorem strcmp_rest_irrelevant (p : List Nat) : ∀ (q r r' : List Nat),
    strcmp (p ++ 0 :: r) q = strcmp (p ++ 0 :: r') q := by
  induction p with
  | nil =>
    intro q r r'
    cases q with
    | nil => simp [strcmp]
    | cons b bs => simp [strcmp]
  | cons a p ih =>
    intro q r r'
    cases q with
    | nil => simp [strcmp]
    | cons b bs => simp [strcmp, ih bs r r']

theorem strlen_cstring (s : List Nat) : ∀ (junk : List Nat), 0 ∉ s →
    strlen (s ++ 0 :: junk) = some s.length := by
  induction s with
  | nil => intro junk _; simp [strlen]
  | cons a s ih =>
    intro junk hs
    have ha : a ≠ 0 := fun h => hs (by simp [h])
    have hs1 : 0 ∉ s := fun h => hs (List.mem_cons_of_mem _ h)
    simp [strlen, ha, ih junk hs1]

end Libc

namespace Pass

/-- C1: on every C string `s` (bytes without a null, then the terminator, then whatever
memory holds), `check` returns, and returns true exactly when `s` is the text that
decompressing the embedded 40 bytes gives before its null byte; this text is
`peanuts are technically legumes`, 31 characters; `check` is true on it and false on
the empty string. -/
theorem check_iff_plaintext (stack : Nat → Nat) (s junk : List Nat) (hs : 0 ∉ s) :
    data.length = 40 ∧
    Zlib.inflate output_len data = (Zlib.Z_STREAM_END, plaintext ++ [0]) ∧
    "peanuts are technically legumes".toList.map Char.toNat = plaintext ∧
    plaintext.length = 31 ∧
    check stack (s ++ 0 :: junk) = some (decide (s = plaintext)) ∧
    (check stack (s ++ 0 :: junk) = some true ↔ s = plaintext) ∧
    check stack (plaintext ++ 0 :: junk) = some true ∧
    check stack (0 :: junk) = some false := by
  refine ⟨by decide, inflate_data, by decide, by decide, check_cstring stack s junk hs, ?_, ?_, ?_⟩
  · rw [check_cstring stack s junk hs]; simp
  · rw [check_cstring stack plaintext junk zero_not_mem_plaintext]; simp
  · have h := check_cstring stack [] junk (by simp)
    simpa [plaintext] using h

theorem check_iff_plaintext_witness :
    check (fun _ => 170) (plaintext ++ [0]) = some (decide (plaintext = plaintext)) :=
  (check_iff_plaintext (fun _ => 170) plaintext [] (by decide)).2.2.2.2.1

/-- C2, as stated, fails: the text value made of the plaintext, a null byte and one more
character differs from the plaintext, and `check` returns true on it. -/
theorem check_accepts_embedded_null :
    plaintextNulX.length = plaintext.length + 2 ∧
    plaintextNulX.take 31 = plaintext ∧
    check (fun _ => 0) (plaintextNulX ++ [0]) = some true := by
  refine ⟨by decide, by decide, ?_⟩
  have h := check_cstring (fun _ => 0) plaintext [120, 0] zero_not_mem_plaintext
  simpa [plaintextNulX] using h

/-- C2, amended: for every candidate text value `t`, stored with a terminator, whose
bytes before its first null byte differ from the plaintext, `check` returns false. This
covers a proper initial part of the plaintext, the plaintext followed by more non-null
text, and a change of letter case; what follows an embedded null byte is not compared. -/
theorem check_rejects_near_miss (stack : Nat → Nat) (t : List Nat)
    (h : t.takeWhile (fun b => b != 0) ≠ plaintext) :
    check stack (t ++ [0]) = some false := by
  obtain ⟨junk, hj⟩ := Libc.cstring_of_text t
  rw [hj, check_cstring stack _ junk (Libc.not_mem_takeWhile t)]
  simp [h]

theorem check_rejects_near_miss_witness :
    check (fun _ => 0) (plaintext.take 7 ++ [0]) = some false ∧
    check (fun _ => 0) ((plaintext ++ [115]) ++ [0]) = some false ∧
    check (fun _ => 0) ((80 :: plaintext.drop 1) ++ [0]) = some false ∧
    check (fun _ => 0) ((plaintext.take 7 ++ 0 :: plaintext.drop 7) ++ [0]) = some false :=
  ⟨check_rejects_near_miss _ _ (by decide), check_rejects_near_miss _ _ (by decide),
   check_rejects_near_miss _ _ (by decide), check_rejects_near_miss _ _ (by decide)⟩

set_option maxRecDepth 100000 in
/-- C3, as stated, fails: on the empty array decompression fails and writes nothing, and
`check` compares the candidate with what the stack held, here the string `x`; on the
embedded array with a wrong checksum decompression fails after it has written the
plaintext, which `check` then accepts. -/
theorem checkWith_failed_accepts :
    (Zlib.uncompress (output stackX) []).1 = Zlib.Z_DATA_ERROR ∧
    checkWith [] stackX [120, 0] = some true ∧
    (Zlib.uncompress (output (fun _ => 0)) dataBadCheck).1 = Zlib.Z_DATA_ERROR ∧
    checkWith dataBadCheck (fun _ => 0) (plaintext ++ [0]) = some true := by
  refine ⟨by decide, by decide, by decide, by decide⟩

/-- C3, amended: with the compressed array as a parameter, `check` does not look at what
`uncompress` returns. For every array (those on which decompression fails included), every
initial content of `output` and every C string `s`, it returns true exactly when `output`,
as `uncompress` left it (the bytes decoded before it stopped, then the initial content),
starts with the bytes of `s` and a null byte; when `output` then holds a null byte, it
returns false on every other C string. -/
theorem checkWith_iff_buffer (blob : List Nat) (stack : Nat → Nat) (s junk : List Nat)
    (hs : 0 ∉ s) :
    (checkWith blob stack (s ++ 0 :: junk) = some true ↔
      ∃ rest, (Zlib.uncompress (output stack) blob).2.1 = s ++ 0 :: rest) ∧
    (∀ p rest, 0 ∉ p → (Zlib.uncompress (output stack) blob).2.1 = p ++ 0 :: rest →
      checkWith blob stack (s ++ 0 :: junk) = some (decide (p = s))) := by
  constructor
  · unfold checkWith
    rw [← Libc.strcmp_eq_zero_iff s _ junk hs]
    cases hc : Libc.strcmp (Zlib.uncompress (output stack) blob).2.1 (s ++ 0 :: junk) with
    | none => simp [hc]
    | some c => simp [hc]
  · intro p rest hp hbuf
    unfold checkWith
    obtain ⟨c, hc, hiff⟩ := Libc.strcmp_cstring p s rest junk hp hs
    simp only [hbuf, hc]
    by_cases h : p = s
    · simp [h, hiff.mpr h]
    · have : c ≠ 0 := fun h0 => h (hiff.mp h0)
      simp [h, this]

theorem checkWith_iff_buffer_witness :
    (Zlib.uncompress (output stackX) []).1 ≠ Zlib.Z_OK ∧
    (checkWith [] stackX ([120] ++ 0 :: []) = some true ↔
      ∃ rest, (Zlib.uncompress (output stackX) []).2.1 = [120] ++ 0 :: rest) ∧
    checkWith [] stackX ([121] ++ 0 :: []) = some (decide ([120] = [121])) :=
  ⟨by decide, (checkWith_iff_buffer [] stackX [120] [] (by decide)).1,
   (checkWith_iff_buffer [] stackX [121] [] (by decide)).2 [120] (List.replicate 48 0)
     (by decide) (by decide)⟩

/-- C4: decompressing the embedded array succeeds and writes 32 bytes, fewer than the 50
of `output`: the 31 bytes of the plaintext, all ASCII and none null, then a null byte.
The array keeps its size and its last 18 bytes, the first null byte of `output` is at
index 31, and the result of `check` does not depend on the bytes that were not written. -/
theorem uncompress_within_capacity (stack stack' : Nat → Nat) (passphrase : List Nat) :
    (Zlib.uncompress (output stack) data).1 = Zlib.Z_OK ∧
    (Zlib.uncompress (output stack) data).2.2 = 32 ∧
    32 < output_len ∧
    (Zlib.uncompress (output stack) data).2.1.take 32 = plaintext ++ [0] ∧
    (plaintext ++ [0]).all (fun b => decide (b < 128)) = true ∧
    plaintext.all (fun b => decide (b ≠ 0)) = true ∧
    (Zlib.uncompress (output stack) data).2.1.length = output_len ∧
    (Zlib.uncompress (output stack) data).2.1.drop 32 = (output stack).drop 32 ∧
    Libc.strlen (Zlib.uncompress (output stack) data).2.1 = some 31 ∧
    check stack passphrase = check stack' passphrase := by
  rw [uncompress_data]
  refine ⟨rfl, rfl, by decide, ?_, by decide, by decide, ?_, ?_, ?_, ?_⟩
  · simp [plaintext]
  · simp [plaintext, output_len, output_length]
  · simp [plaintext]
  · exact Libc.strlen_cstring plaintext _ zero_not_mem_plaintext
  · unfold check checkWith
    rw [uncompress_data, uncompress_data]
    simp only []
    rw [Libc.strcmp_rest_irrelevant plaintext passphrase _ ((output stack').drop 32)]

end Pass

namespace Safe

/-- The remainder of a division by 26 that truncates lies strictly between -26 and 26. -/
theorem tmod_26_bounds (x : Int) : -26 < Int.tmod x 26 ∧ Int.tmod x 26 < 26 := by
  constructor
  · cases x with
    | ofNat m =>
      have h : (0 : Int) ≤ Int.tmod (Int.ofNat m) 26 := Int.tmod_nonneg 26 (Int.ofNat_nonneg m)
      omega
    | negSucc m =>
      have h : Int.tmod (Int.negSucc m) 26 = -((((m + 1) % 26 : Nat)) : Int) := rfl
      rw [h]
      omega
  · exact Int.tmod_lt_of_pos x (by decide)

/-- Whatever the two characters, the value computed for a position lies in `40 .. 90`. -/
theorem step_bounds (sgn : Bool) (c p : Nat) : 40 ≤ step sgn c p ∧ step sgn c p ≤ 90 := by
  unfold step
  have h := tmod_26_bounds (Int.xor (charVal sgn c) (33 + charVal sgn p))
  omega

theorem toByte_step (sgn : Bool) (c p : Nat) : (toByte (step sgn c p) : Int) = step sgn c p := by
  have h := step_bounds sgn c p
  unfold toByte
  omega

theorem toByte_step_bounds (sgn : Bool) (c p : Nat) :
    40 ≤ toByte (step sgn c p) ∧ toByte (step sgn c p) ≤ 90 := by
  have h := step_bounds sgn c p
  have h2 := toByte_step sgn c p
  omega

theorem charVal_of_lt (sgn : Bool) (b : Nat) (h : b < 128) : charVal sgn b = b := by
  unfold charVal
  have : ¬ (sgn = true ∧ 128 ≤ b) := fun h2 => by omega
  simp [this]

theorem charVal_unsigned (b : Nat) : charVal false b = b := by
  simp [charVal]

/-- When both characters have non-negative values, the computed value is the one that
the formula gives on character codes, with the remainder of natural numbers. -/
theorem step_of_nonneg (sgn : Bool) (c p : Nat) (hc : charVal sgn c = c)
    (hp : charVal sgn p = p) :
    step sgn c p = ((65 + (c ^^^ (33 + p)) % 26 : Nat) : Int) := by
  unfold step
  rw [hc, hp]
  have h1 : (33 : Int) + (p : Int) = ((33 + p : Nat) : Int) := by push_cast; ring
  rw [h1]
  have h2 : Int.xor (c : Int) ((33 + p : Nat) : Int) = ((c ^^^ (33 + p) : Nat) : Int) := rfl
  rw [h2]
  have h3 : Int.tmod ((c ^^^ (33 + p) : Nat) : Int) 26 = (((c ^^^ (33 + p)) % 26 : Nat) : Int) := rfl
  rw [h3]
  push_cast
  ring

end Safe

namespace Safe

/-- The loop of `validate`, entered at position `done.length + 1` with the characters
`done` and `p` already in their final state: it terminates at the null byte of the seed
and has then replaced the characters `rest` by `rolling p rest`. -/
theorem transform_eq (sgn : Bool) (rest : List Nat) : ∀ (done junk : List Nat) (p : Nat),
    0 ∉ rest →
    transform sgn (rest ++ 0 :: junk) (done.length + 1) (done ++ p :: (rest ++ [0]))
      = some (done ++ p :: (rolling sgn p rest ++ [0])) := by
  induction rest with
  | nil => intro done junk p _; simp [transform, rolling]
  | cons c rest ih =>
    intro done junk p hr
    have hc : c ≠ 0 := fun h => hr (by simp [h])
    have hr1 : 0 ∉ rest := fun h => hr (List.mem_cons_of_mem _ h)
    have hget : (done ++ p :: (c :: rest ++ [0])).get? (done.length + 1 - 1) = some p := by
      rw [Nat.add_sub_cancel, List.get?_eq_getElem?, List.getElem?_append_right (Nat.le_refl _)]
      simp
    have hlt : done.length + 1 < (done ++ p :: (c :: rest ++ [0])).length := by
      simp
    have hset : (done ++ p :: (c :: rest ++ [0])).set (done.length + 1) (toByte (step sgn c p))
        = (done ++ [p]) ++ toByte (step sgn c p) :: (rest ++ [0]) := by
      rw [List.set_append_right _ _ (by omega)]
      simp
    have hrec := ih (done ++ [p]) junk (toByte (step sgn c p)) hr1
    simp only [List.length_append, List.length_singleton] at hrec
    rw [List.cons_append, transform]
    simp only [hc, if_false, hget, hlt, if_true, hset, hrec]
    simp [rolling]

theorem strdup_cstring (s junk : List Nat) (hs : 0 ∉ s) :
    Libc.strdup (s ++ 0 :: junk) = some (s ++ [0]) := by
  unfold Libc.strdup
  rw [Libc.strlen_cstring s junk hs]
  simp [List.take_append_eq_append_take]

/-- On a non-empty C string the loop of `validate` terminates, and leaves in `file` the
first character of the seed, the rolling transformation of the others, and the null. -/
theorem derive_cstring (sgn : Bool) (a : Nat) (s junk : List Nat) (hs : 0 ∉ a :: s) :
    derive sgn ((a :: s) ++ 0 :: junk) = some ((a :: rolling sgn a s) ++ [0]) := by
  have hs1 : 0 ∉ s := fun h => hs (List.mem_cons_of_mem _ h)
  unfold derive
  rw [strdup_cstring (a :: s) junk hs]
  have h := transform_eq sgn s [] junk a hs1
  simpa using h

theorem rolling_length (sgn : Bool) (cs : List Nat) : ∀ p, (rolling sgn p cs).length = cs.length := by
  induction cs with
  | nil => intro p; simp [rolling]
  | cons c cs ih => intro p; simp [rolling, ih]

/-- Every character of the rolling transformation lies in `40 .. 90`. -/
theorem rolling_bounds (sgn : Bool) (cs : List Nat) : ∀ p, ∀ f ∈ rolling sgn p cs, 40 ≤ f ∧ f ≤ 90 := by
  induction cs with
  | nil => intro p f hf; simp [rolling] at hf
  | cons c cs ih =>
    intro p f hf
    simp only [rolling, List.mem_cons] at hf
    rcases hf with hf | hf
    · rw [hf]; exact toByte_step_bounds sgn c p
    · exact ih _ f hf

/-- Position by position: the character at `i + 1` is computed from the seed character
at `i + 1` and from the transformed character at `i`. -/
theorem rolling_get (sgn : Bool) (cs : List Nat) : ∀ (p i c q : Nat),
    cs.get? i = some c → (p :: rolling sgn p cs).get? i = some q →
    (rolling sgn p cs).get? i = some (toByte (step sgn c q)) := by
  induction cs with
  | nil => intro p i c q h; simp at h
  | cons c0 cs ih =>
    intro p i c q hc hq
    cases i with
    | zero =>
      simp at hc hq
      subst hc; subst hq
      simp [rolling]
    | succ j =>
      simp only [List.get?_cons_succ] at hc hq
      simp only [rolling, List.get?_cons_succ] at hq ⊢
      exact ih _ j c q hc hq

end Safe

namespace Safe

theorem zero_not_mem_derived (sgn : Bool) (a : Nat) (s : List Nat) (hs : 0 ∉ a :: s) :
    0 ∉ a :: rolling sgn a s := by
  intro h
  rcases List.mem_cons.mp h with h | h
  · exact hs (by simp [← h])
  · have := rolling_bounds sgn s a 0 h
    omega

/-- C5, as stated, fails: where `char` is signed, the seed made of `A` and of the byte
200 derives the code 57 at position 1, while the formula on the character codes,
`65 + ((200 XOR (33 + 65)) mod 26)`, gives 79. -/
theorem derive_differs_from_codes :
    derive true [65, 200, 0] = some [65, 57, 0] ∧
    65 + (200 ^^^ (33 + 65)) % 26 = 79 := by
  decide

/-- C5, amended: for every non-empty seed (a C string) the loop of `validate` terminates
and the derived name `file` has the length of the seed and `file[0] = seed[0]`. At
every position `pos` from 1 to `len(seed) - 1` where `char` is unsigned, or where
`seed[pos]` and `file[pos-1]` have codes below 128 (every position of a seed whose
bytes are all below 128), `file[pos] = 65 + ((seed[pos] XOR (33 + file[pos-1])) mod 26)`
on the character codes, `file[pos-1]` being the character as already transformed. At
every position the same expression holds on the values of the characters as C promotes
them, with the remainder that truncates towards zero. The seed `AB` derives `AG`. -/
theorem derive_recurrence (sgn : Bool) (s junk : List Nat) (hne : s ≠ []) (hs : 0 ∉ s) :
    ∃ file, derive sgn (s ++ 0 :: junk) = some (file ++ [0]) ∧
      file.length = s.length ∧
      file.get? 0 = s.get? 0 ∧
      (∀ pos c p, 1 ≤ pos → s.get? pos = some c → file.get? (pos - 1) = some p →
        (sgn = false ∨ (c < 128 ∧ p < 128)) →
        file.get? pos = some (65 + (c ^^^ (33 + p)) % 26)) ∧
      ((sgn = false ∨ ∀ b ∈ s, b < 128) →
        ∀ pos c p, 1 ≤ pos → s.get? pos = some c → file.get? (pos - 1) = some p →
          file.get? pos = some (65 + (c ^^^ (33 + p)) % 26)) ∧
      (∀ pos c p, 1 ≤ pos → s.get? pos = some c → file.get? (pos - 1) = some p →
        ∃ f, file.get? pos = some f ∧
          charVal sgn f = 65 + Int.tmod (Int.xor (charVal sgn c) (33 + charVal sgn p)) 26) ∧
      derive sgn [65, 66, 0] = some [65, 71, 0] := by
  cases s with
  | nil => exact absurd rfl hne
  | cons a s =>
    have hlocal : ∀ pos c p, 1 ≤ pos → (a :: s).get? pos = some c →
        (a :: rolling sgn a s).get? (pos - 1) = some p →
        (sgn = false ∨ (c < 128 ∧ p < 128)) →
        (a :: rolling sgn a s).get? pos = some (65 + (c ^^^ (33 + p)) % 26) := by
      intro pos c p hpos hc hp h
      obtain ⟨i, rfl⟩ : ∃ i, pos = i + 1 := ⟨pos - 1, by omega⟩
      simp only [List.get?_cons_succ, Nat.add_sub_cancel] at hc hp ⊢
      rw [rolling_get sgn s a i c p hc hp]
      have hcp : charVal sgn c = c ∧ charVal sgn p = p := by
        rcases h with h | ⟨h1, h2⟩
        · subst h; exact ⟨charVal_unsigned c, charVal_unsigned p⟩
        · exact ⟨charVal_of_lt sgn c h1, charVal_of_lt sgn p h2⟩
      have h1 := step_of_nonneg sgn c p hcp.1 hcp.2
      have h2 := toByte_step sgn c p
      have h3 : toByte (step sgn c p) = 65 + (c ^^^ (33 + p)) % 26 := by omega
      rw [h3]
    refine ⟨a :: rolling sgn a s, derive_cstring sgn a s junk hs, ?_, ?_, hlocal, ?_, ?_, ?_⟩
    · simp [rolling_length]
    · simp
    · intro h pos c p hpos hc hp
      refine hlocal pos c p hpos hc hp ?_
      rcases h with h | h
      · exact Or.inl h
      · refine Or.inr ⟨h c (List.get?_mem hc), ?_⟩
        rcases List.mem_cons.mp (List.get?_mem hp) with hpa | hpr
        · rw [hpa]; exact h a (by simp)
        · have := rolling_bounds sgn s a p hpr
          omega
    · intro pos c p hpos hc hp
      obtain ⟨i, rfl⟩ : ∃ i, pos = i + 1 := ⟨pos - 1, by omega⟩
      simp only [List.get?_cons_succ, Nat.add_sub_cancel] at hc hp ⊢
      refine ⟨toByte (step sgn c p), rolling_get sgn s a i c p hc hp, ?_⟩
      have hb := toByte_step_bounds sgn c p
      rw [charVal_of_lt sgn _ (by omega), toByte_step]
      rfl
    · cases sgn <;> decide

theorem derive_recurrence_witness :
    (∃ file, derive true ([46, 115, 101] ++ 0 :: []) = some (file ++ [0]) ∧
      file.length = [46, 115, 101].length ∧
      file.get? 0 = [46, 115, 101].get? 0 ∧
      (∀ pos c p, 1 ≤ pos → [46, 115, 101].get? pos = some c →
        file.get? (pos - 1) = some p →
        (true = false ∨ (c < 128 ∧ p < 128)) →
        file.get? pos = some (65 + (c ^^^ (33 + p)) % 26)) ∧
      ((true = false ∨ ∀ b ∈ [46, 115, 101], b < 128) →
        ∀ pos c p, 1 ≤ pos → [46, 115, 101].get? pos = some c →
          file.get? (pos - 1) = some p →
          file.get? pos = some (65 + (c ^^^ (33 + p)) % 26)) ∧
      (∀ pos c p, 1 ≤ pos → [46, 115, 101].get? pos = some c →
        file.get? (pos - 1) = some p →
        ∃ f, file.get? pos = some f ∧
          charVal true f = 65 + Int.tmod (Int.xor (charVal true c) (33 + charVal true p)) 26) ∧
      derive true [65, 66, 0] = some [65, 71, 0]) ∧
    (∃ file, derive false ([65, 200] ++ 0 :: []) = some (file ++ [0]) ∧
      file.length = [65, 200].length ∧
      file.get? 0 = [65, 200].get? 0 ∧
      (∀ pos c p, 1 ≤ pos → [65, 200].get? pos = some c →
        file.get? (pos - 1) = some p →
        (false = false ∨ (c < 128 ∧ p < 128)) →
        file.get? pos = some (65 + (c ^^^ (33 + p)) % 26)) ∧
      ((false = false ∨ ∀ b ∈ [65, 200], b < 128) →
        ∀ pos c p, 1 ≤ pos → [65, 200].get? pos = some c →
          file.get? (pos - 1) = some p →
          file.get? pos = some (65 + (c ^^^ (33 + p)) % 26)) ∧
      (∀ pos c p, 1 ≤ pos → [65, 200].get? pos = some c →
        file.get? (pos - 1) = some p →
        ∃ f, file.get? pos = some f ∧
          charVal false f = 65 + Int.tmod (Int.xor (charVal false c) (33 + charVal false p)) 26) ∧
      derive false [65, 66, 0] = some [65, 71, 0]) :=
  ⟨derive_recurrence true [46, 115, 101] [] (by decide) (by decide),
   derive_recurrence false [65, 200] [] (by decide) (by decide)⟩

/-- C7: for every non-empty seed, the derived name has the length of the seed: the loop
leaves position 0 and the terminating null byte as they are, writes no null byte, and
`strlen` of `file` equals `strlen` of `seed`. -/
theorem derive_same_length (sgn : Bool) (s junk : List Nat) (hne : s ≠ []) (hs : 0 ∉ s) :
    ∃ file, derive sgn (s ++ 0 :: junk) = some (file ++ [0]) ∧
      file.length = s.length ∧
      file.head? = s.head? ∧
      0 ∉ file ∧
      Libc.strlen (file ++ [0]) = some s.length ∧
      Libc.strlen (s ++ 0 :: junk) = some s.length := by
  cases s with
  | nil => exact absurd rfl hne
  | cons a s =>
    have hz := zero_not_mem_derived sgn a s hs
    refine ⟨a :: rolling sgn a s, derive_cstring sgn a s junk hs, ?_, ?_, hz, ?_,
      Libc.strlen_cstring _ junk hs⟩
    · simp [rolling_length]
    · simp
    · rw [Libc.strlen_cstring _ [] hz]
      simp [rolling_length]

theorem derive_same_length_witness :
    ∃ file, derive true ([65, 200, 66] ++ 0 :: [7]) = some (file ++ [0]) ∧
      file.length = [65, 200, 66].length ∧
      file.head? = [65, 200, 66].head? ∧
      0 ∉ file ∧
      Libc.strlen (file ++ [0]) = some [65, 200, 66].length ∧
      Libc.strlen ([65, 200, 66] ++ 0 :: [7]) = some [65, 200, 66].length :=
  derive_same_length true [65, 200, 66] [7] (by decide) (by decide)

theorem access_cstring (fs : Posix.FileSystem) (path : List Nat) (mode : Int) (hp : 0 ∉ path) :
    Posix.access fs (path ++ [0]) mode
      = some (if fs.lookup path = .found then 0 else -1, fs) := by
  unfold Posix.access
  rw [Libc.strlen_cstring path [] hp]
  simp

/-- On a non-empty C string `validate` returns whether the lookup of the derived path
finds an entry, and the file system as it was. -/
theorem validate_cstring (sgn : Bool) (fs : Posix.FileSystem) (a : Nat) (s junk : List Nat)
    (hs : 0 ∉ a :: s) :
    validate sgn fs ((a :: s) ++ 0 :: junk)
      = some (decide (fs.lookup (a :: rolling sgn a s) = .found), fs) := by
  unfold validate
  rw [derive_cstring sgn a s junk hs]
  simp only []
  rw [access_cstring fs _ _ (zero_not_mem_derived sgn a s hs)]
  by_cases h : fs.lookup (a :: rolling sgn a s) = .found <;> simp [h]

end Safe

namespace Safe

/-- C8: with the file system as an explicit state, for every non-empty seed `validate`
returns true exactly when the lookup of the path derived from the seed finds an entry;
every other result of the lookup (no entry, permission denied, another error) gives
false; the file system is returned as it was. -/
theorem validate_iff_found (sgn : Bool) (fs : Posix.FileSystem) (s junk : List Nat)
    (hne : s ≠ []) (hs : 0 ∉ s) :
    ∃ path, derive sgn (s ++ 0 :: junk) = some (path ++ [0]) ∧ 0 ∉ path ∧
      validate sgn fs (s ++ 0 :: junk) = some (decide (fs.lookup path = .found), fs) ∧
      (validate sgn fs (s ++ 0 :: junk) = some (true, fs) ↔ fs.lookup path = .found) ∧
      (fs.lookup path ≠ .found → validate sgn fs (s ++ 0 :: junk) = some (false, fs)) := by
  cases s with
  | nil => exact absurd rfl hne
  | cons a s =>
    have hv := validate_cstring sgn fs a s junk hs
    refine ⟨a :: rolling sgn a s, derive_cstring sgn a s junk hs,
      zero_not_mem_derived sgn a s hs, hv, ?_, ?_⟩
    · rw [hv]; simp
    · intro h; rw [hv]; simp [h]

theorem validate_iff_found_witness :
    (∃ path, derive true ([65, 66] ++ 0 :: []) = some (path ++ [0]) ∧ 0 ∉ path ∧
      validate true fsOnlyAG ([65, 66] ++ 0 :: [])
        = some (decide (fsOnlyAG.lookup path = .found), fsOnlyAG) ∧
      (validate true fsOnlyAG ([65, 66] ++ 0 :: []) = some (true, fsOnlyAG) ↔
        fsOnlyAG.lookup path = .found) ∧
      (fsOnlyAG.lookup path ≠ .found →
        validate true fsOnlyAG ([65, 66] ++ 0 :: []) = some (false, fsOnlyAG))) ∧
    (∃ path, derive true ([65, 66] ++ 0 :: []) = some (path ++ [0]) ∧ 0 ∉ path ∧
      validate true fsDenied ([65, 66] ++ 0 :: [])
        = some (decide (fsDenied.lookup path = .found), fsDenied) ∧
      (validate true fsDenied ([65, 66] ++ 0 :: []) = some (true, fsDenied) ↔
        fsDenied.lookup path = .found) ∧
      (fsDenied.lookup path ≠ .found →
        validate true fsDenied ([65, 66] ++ 0 :: []) = some (false, fsDenied))) :=
  ⟨validate_iff_found true fsOnlyAG [65, 66] [] (by decide) (by decide),
   validate_iff_found true fsDenied [65, 66] [] (by decide) (by decide)⟩

/-- C10: for every file system and every argument vector, the program of `safe.c` exits
with status 0 and writes `congratulations!` to the standard output when the lookup of the
path `.IPSGNBIMHFCHAHMK`, derived from the seed `.secret_file_seed`, finds an entry;
otherwise it exits with status 1 and writes `error: secret file is missing.` to the
standard error stream. The arguments are not used and the file system is unchanged. -/
theorem safe_main_outcome (sgn : Bool) (fs : Posix.FileSystem) (argv : List (List Nat)) :
    seedLiteral = ".secret_file_seed".toList.map Char.toNat ++ [0] ∧
    secretPath = ".IPSGNBIMHFCHAHMK".toList.map Char.toNat ∧
    derive sgn seedLiteral = some (secretPath ++ [0]) ∧
    main sgn fs argv =
      some (if fs.lookup secretPath = .found then ⟨0, "congratulations!\n", ""⟩
            else ⟨1, "", "error: secret file is missing.\n"⟩, fs) := by
  have hd : derive sgn seedLiteral = some (secretPath ++ [0]) := by cases sgn <;> decide
  have hr : (46 :: rolling sgn 46
      [115, 101, 99, 114, 101, 116, 95, 102, 105, 108, 101, 95, 115, 101, 101, 100])
      = secretPath := by cases sgn <;> decide
  refine ⟨by decide, by decide, hd, ?_⟩
  have hv := validate_cstring sgn fs 46
    [115, 101, 99, 114, 101, 116, 95, 102, 105, 108, 101, 95, 115, 101, 101, 100] []
    (by decide)
  rw [hr] at hv
  unfold main
  have hseed : seedLiteral = (46 ::
      [115, 101, 99, 114, 101, 116, 95, 102, 105, 108, 101, 95, 115, 101, 101, 100]) ++ 0 :: [] :=
    rfl
  rw [hseed, hv]
  by_cases h : fs.lookup secretPath = .found <;> simp [h]

end Safe

namespace Pass

/-- C9: for every argument vector the program of `pass.c` has one of three outcomes.
With fewer than two entries in `argv` it exits with status 1 and writes
`error: no passphrase provided.` to the standard error stream; with a first argument
that is not the plaintext it exits with status 1 and writes `error: wrong passphrase.`
there; with a first argument that is the plaintext it exits with status 0 and writes
`congratulations!` to the standard output. The entries after the first argument, and
the program name, do not enter the result. -/
theorem pass_main_outcome (stack : Nat → Nat) (argv : List (List Nat)) :
    (argv.length < 2 →
      main stack argv = some ⟨1, "", "error: no passphrase provided.\n"⟩) ∧
    (∀ a0 s junk rest, 0 ∉ s → argv = a0 :: (s ++ 0 :: junk) :: rest →
      main stack argv =
        some (if s = plaintext then ⟨0, "congratulations!\n", ""⟩
              else ⟨1, "", "error: wrong passphrase.\n"⟩)) := by
  constructor
  · intro h
    unfold main
    rw [if_pos h]
  · intro a0 s junk rest hs hargv
    subst hargv
    have hlen : ¬ (a0 :: (s ++ 0 :: junk) :: rest).length < 2 := by
      simp only [List.length_cons]; omega
    unfold main
    rw [if_neg hlen]
    have hget : (a0 :: (s ++ 0 :: junk) :: rest).get? 1 = some (s ++ 0 :: junk) := rfl
    rw [hget]
    simp only []
    rw [check_cstring stack s junk hs]
    by_cases h : s = plaintext
    · simp [h]
    · simp [h]

theorem pass_main_outcome_witness :
    main stackX [[112, 0]] = some ⟨1, "", "error: no passphrase provided.\n"⟩ ∧
    main stackX [[112, 0], plaintext ++ 0 :: [], [120, 0]] =
      some (if plaintext = plaintext then ⟨0, "congratulations!\n", ""⟩
            else ⟨1, "", "error: wrong passphrase.\n"⟩) ∧
    main stackX [[112, 0], [120] ++ 0 :: []] =
      some (if [120] = plaintext then ⟨0, "congratulations!\n", ""⟩
            else ⟨1, "", "error: wrong passphrase.\n"⟩) :=
  ⟨(pass_main_outcome stackX [[112, 0]]).1 (by decide),
   (pass_main_outcome stackX _).2 [112, 0] plaintext [] [[120, 0]] (by decide) rfl,
   (pass_main_outcome stackX _).2 [112, 0] [120] [] [] (by decide) rfl⟩

end Pass
